import Mathlib

/-!
Shallow embedding of the `iox` stream-transfer library (Go) and proofs about
its copy engine, retry/backoff decision framework, tee adapters and backoff
generator.

Modelling conventions:
* An error value (`error` in Go) is `Option Err`: `none` is Go's `nil`.
* A `Reader` is modelled as a script: a list of responses, one per `Read`
  call. Each response is a function of the capacity of the buffer passed to
  `Read` and yields `(n, err)`.  When the script is exhausted, further reads
  return `(0, io.EOF)` (end of stream).
* A `Writer` is modelled the same way, as a function of the offered length.
  When the script is exhausted the writer accepts everything offered,
  returning `(len, nil)`.
* Seekability of a source is a flag `seekable`; a relative `Seek` either
  succeeds (moving the position) or fails with a fixed error `seekFail`,
  matching how `copyBuffer` only ever issues `Seek(nw-nr, io.SeekCurrent)`.
* The sources modelled here implement neither `io.WriterTo` nor
  `io.ReaderFrom`, so `Copy`/`CopyBuffer` dispatch to the generic buffered
  loop, which is what the claims below are about.
-/

namespace Iox

/-- Error vocabulary of the library: the two semantic signals, the sentinel
errors used by the copy engine, and `other c` for arbitrary foreign errors. -/
inductive Err where
  | eof
  | wouldBlock
  | more
  | noSeeker
  | shortWrite
  | unexpectedEOF
  | other (code : Nat)
deriving DecidableEq, Repr

/-- `IsSemantic` from semantics.go: true exactly for ErrWouldBlock and
ErrMore (the model carries no wrapping, so `errors.Is` is equality). -/
def isSemantic : Err → Bool
  | Err.wouldBlock => true
  | Err.more => true
  | _ => false

/-- One scripted `Read` response: capacity of the supplied buffer ↦ (n, err). -/
abbrev RStep := Nat → Nat × Option Err

/-- One scripted `Write` response: offered length ↦ (n, err). -/
abbrev WStep := Nat → Nat × Option Err

/-- `dst.Write(buf[:len])` on a scripted writer: consume the next response;
an exhausted script accepts everything. Returns ((nw, ew), rest). -/
def dstWrite : List WStep → Nat → (Nat × Option Err) × List WStep
  | [], len => ((len, none), [])
  | g :: rest, len => (g len, rest)

/-- Result of the generic buffered copy loop: bytes written, final error
(`none` = success), final source position, remaining writer script. -/
structure CopyOut where
  written : Nat
  err : Option Err
  pos : Int
  dst : List WStep

/-- One iteration of the generic buffered loop of `copyBuffer`
(io.go, the version with Seeker rollback).  `inl` means the Go `for` loop
continues with the updated `(pos, dst, written)`; `inr` is an early return.
The read itself (consuming the script head `f`) happens in `copyLoop`. -/
def copyIter (cap : Nat) (seekable : Bool) (seekFail : Option Err)
    (f : RStep) (pos : Int) (ws : List WStep) (w : Nat) :
    (Int × List WStep × Nat) ⊕ CopyOut :=
  let nr := (f cap).1
  let er := (f cap).2
  let pos1 := pos + (nr : Int)
  if 0 < nr then
    let step := dstWrite ws nr
    let nw := step.1.1
    let ew := step.1.2
    let ws1 := step.2
    let w1 := w + nw
    match ew with
    | some e =>
      -- Attempt Seeker rollback on partial write with semantic error.
      if nw < nr ∧ isSemantic e then
        if seekable then
          match seekFail with
          | some se => Sum.inr ⟨w1, some se, pos1, ws1⟩
          | none => Sum.inr ⟨w1, some e, pos1 + ((nw : Int) - (nr : Int)), ws1⟩
        else
          -- Source is not seekable; unwritten bytes are unrecoverable.
          Sum.inr ⟨w1, some Err.noSeeker, pos1, ws1⟩
      else Sum.inr ⟨w1, some e, pos1, ws1⟩
    | none =>
      if nw ≠ nr then Sum.inr ⟨w1, some Err.shortWrite, pos1, ws1⟩
      else
        match er with
        | none => Sum.inl (pos1, ws1, w1)
        | some Err.eof => Sum.inr ⟨w1, none, pos1, ws1⟩
        | some e => Sum.inr ⟨w1, some e, pos1, ws1⟩
  else
    match er with
    | none => Sum.inr ⟨w, none, pos1, ws⟩
    | some Err.eof => Sum.inr ⟨w, none, pos1, ws⟩
    | some e => Sum.inr ⟨w, some e, pos1, ws⟩

/-- The generic buffered loop of `copyBuffer` over a scripted source.  An
exhausted read script is a clean end-of-stream: `Read` yields `(0, io.EOF)`
and the loop maps that to `(written, nil)`. -/
def copyLoop (cap : Nat) (seekable : Bool) (seekFail : Option Err) :
    List RStep → Int → List WStep → Nat → CopyOut
  | [], pos, ws, w => ⟨w, none, pos, ws⟩
  | f :: rest, pos, ws, w =>
    match copyIter cap seekable seekFail f pos ws w with
    | Sum.inl (pos1, ws1, w1) => copyLoop cap seekable seekFail rest pos1 ws1 w1
    | Sum.inr out => out

/-- `Copy(dst, src)`: the generic loop with the default 32 KiB stack buffer,
starting with nothing written. -/
def copy (seekable : Bool) (seekFail : Option Err)
    (rs : List RStep) (pos : Int) (ws : List WStep) : CopyOut :=
  copyLoop 32768 seekable seekFail rs pos ws 0

/-! ## The retry/backoff decision framework (policy.go) -/

/-- `Op` identifies the call-site a semantic signal came from. -/
inductive Op where
  | copyRead
  | copyWrite
  | copyWriterTo
  | copyReaderFrom
  | teeReaderRead
  | teeReaderSideWrite
  | teeWriterPrimaryWrite
  | teeWriterTeeWrite
deriving DecidableEq, Repr

/-- `PolicyAction`: return to the caller, or retry after yielding. -/
inductive PolicyAction where
  | ret
  | retry
deriving DecidableEq, Repr

/-- `SemanticPolicy`, pure decision part.  The `Yield` hook carries no
decision; engines log each `Yield(op)` invocation instead (the log stands
for the sequence of side effects the hook would have had). -/
structure Policy where
  onWouldBlock : Op → PolicyAction
  onMore : Op → PolicyAction

/-- `ReturnPolicy`: never retries; the yield hook is a no-op. -/
def ReturnPolicy : Policy := ⟨fun _ => PolicyAction.ret, fun _ => PolicyAction.ret⟩

/-- `YieldPolicy`: retry on would-block, return on more. -/
def YieldPolicy : Policy := ⟨fun _ => PolicyAction.retry, fun _ => PolicyAction.ret⟩

/-- Result of the inner write loop of `copyBufferPolicy` (the
`for off < nr` loop): either the whole chunk was accepted (`done`), or the
loop returned early with error `e` having accepted `acc` bytes (`stop`).
`log` accumulates the `Yield(op)` invocations. -/
inductive WRes where
  | done (ws : List WStep) (acc : Nat) (log : List Op)
  | stop (ws : List WStep) (acc : Nat) (log : List Op) (e : Err)

/-- The inner write loop of `copyBufferPolicy`: write `buf[off:nr]`,
retrying per policy on semantic errors.  A zero-byte error-free write is
`ErrShortWrite`. -/
def writeLoopP (pol : Policy) (nr : Nat) :
    List WStep → Nat → List Op → WRes
  | ws, off, log =>
    if off < nr then
      match ws with
      | [] => WRes.done [] nr log
      | g :: rest =>
        let nw := (g (nr - off)).1
        let ew := (g (nr - off)).2
        let off1 := off + nw
        match ew with
        | some Err.wouldBlock =>
          if pol.onWouldBlock Op.copyWrite = PolicyAction.retry then
            writeLoopP pol nr rest off1 (log ++ [Op.copyWrite])
          else WRes.stop rest off1 log Err.wouldBlock
        | some Err.more =>
          if pol.onMore Op.copyWrite = PolicyAction.retry then
            writeLoopP pol nr rest off1 (log ++ [Op.copyWrite])
          else WRes.stop rest off1 log Err.more
        | some e => WRes.stop rest off1 log e
        | none =>
          if nw = 0 then WRes.stop rest off1 log Err.shortWrite
          else writeLoopP pol nr rest off1 log
    else WRes.done ws off log

/-- Result of the policy-aware copy: as `CopyOut` plus the yield log. -/
structure POut where
  written : Nat
  err : Option Err
  pos : Int
  dst : List WStep
  log : List Op

/-- One iteration of the outer loop of `copyBufferPolicy` (the generic,
non-fast-path part).  `inl` continues the Go `for` loop. -/
def copyIterP (cap : Nat) (pol : Policy) (seekable : Bool) (seekFail : Option Err)
    (f : RStep) (pos : Int) (ws : List WStep) (w : Nat) (log : List Op) :
    (Int × List WStep × Nat × List Op) ⊕ POut :=
  let nr := (f cap).1
  let er := (f cap).2
  let pos1 := pos + (nr : Int)
  if 0 < nr then
    match writeLoopP pol nr ws 0 log with
    | WRes.done ws1 acc log1 =>
      let w1 := w + acc
      match er with
      | none => Sum.inl (pos1, ws1, w1, log1)
      | some Err.eof => Sum.inr ⟨w1, none, pos1, ws1, log1⟩
      | some Err.wouldBlock =>
        if pol.onWouldBlock Op.copyRead = PolicyAction.retry then
          Sum.inl (pos1, ws1, w1, log1 ++ [Op.copyRead])
        else Sum.inr ⟨w1, some Err.wouldBlock, pos1, ws1, log1⟩
      | some Err.more =>
        if pol.onMore Op.copyRead = PolicyAction.retry then
          Sum.inl (pos1, ws1, w1, log1 ++ [Op.copyRead])
        else Sum.inr ⟨w1, some Err.more, pos1, ws1, log1⟩
      | some e => Sum.inr ⟨w1, some e, pos1, ws1, log1⟩
    | WRes.stop ws1 acc log1 e =>
      let w1 := w + acc
      if isSemantic e then
        -- Attempt Seeker rollback on partial write when policy returns.
        if acc < nr then
          if seekable then
            match seekFail with
            | some se => Sum.inr ⟨w1, some se, pos1, ws1, log1⟩
            | none => Sum.inr ⟨w1, some e, pos1 + ((acc : Int) - (nr : Int)), ws1, log1⟩
          else
            -- Source is not seekable; unwritten bytes are unrecoverable.
            Sum.inr ⟨w1, some Err.noSeeker, pos1, ws1, log1⟩
        else Sum.inr ⟨w1, some e, pos1, ws1, log1⟩
      else Sum.inr ⟨w1, some e, pos1, ws1, log1⟩
  else
    match er with
    | none => Sum.inr ⟨w, none, pos1, ws, log⟩
    | some Err.eof => Sum.inr ⟨w, none, pos1, ws, log⟩
    | some Err.wouldBlock =>
      if pol.onWouldBlock Op.copyRead = PolicyAction.retry then
        Sum.inl (pos1, ws, w, log ++ [Op.copyRead])
      else Sum.inr ⟨w, some Err.wouldBlock, pos1, ws, log⟩
    | some Err.more =>
      if pol.onMore Op.copyRead = PolicyAction.retry then
        Sum.inl (pos1, ws, w, log ++ [Op.copyRead])
      else Sum.inr ⟨w, some Err.more, pos1, ws, log⟩
    | some e => Sum.inr ⟨w, some e, pos1, ws, log⟩

/-- The generic loop of `copyBufferPolicy` over a scripted source. -/
def copyLoopP (cap : Nat) (pol : Policy) (seekable : Bool) (seekFail : Option Err) :
    List RStep → Int → List WStep → Nat → List Op → POut
  | [], pos, ws, w, log => ⟨w, none, pos, ws, log⟩
  | f :: rest, pos, ws, w, log =>
    match copyIterP cap pol seekable seekFail f pos ws w log with
    | Sum.inl (pos1, ws1, w1, log1) => copyLoopP cap pol seekable seekFail rest pos1 ws1 w1 log1
    | Sum.inr out => out

/-! ## CopyN (io.go) -/

/-- Result of the buffered loop when driven through a `limitedReader`. -/
structure NOut where
  written : Nat
  err : Option Err
  dst : List WStep

/-- `copyBuffer(dst, &limitedReader{R: src, N: n}, nil)`: the generic loop
where each read first passes through the byte-limiting view.  The limited
reader is not an `io.Seeker`, so a partial semantic write yields
`ErrNoSeeker`. -/
def copyLoopN (cap : Nat) :
    List RStep → Int → List WStep → Nat → NOut
  | rs, n, ws, w =>
    if n ≤ 0 then ⟨w, none, ws⟩  -- limitedReader returns (0, io.EOF); loop maps EOF to success
    else
      match rs with
      | [] => ⟨w, none, ws⟩      -- underlying source is drained: (0, io.EOF)
      | f :: rest =>
        let capped := min cap n.toNat
        let nr := (f capped).1
        let er := (f capped).2
        if 0 < nr then
          let step := dstWrite ws nr
          let nw := step.1.1
          let ew := step.1.2
          let ws1 := step.2
          let w1 := w + nw
          match ew with
          | some e =>
            if nw < nr ∧ isSemantic e then ⟨w1, some Err.noSeeker, ws1⟩
            else ⟨w1, some e, ws1⟩
          | none =>
            if nw ≠ nr then ⟨w1, some Err.shortWrite, ws1⟩
            else
              match er with
              | none => copyLoopN cap rest (n - (nr : Int)) ws1 w1
              | some Err.eof => ⟨w1, none, ws1⟩
              | some e => ⟨w1, some e, ws1⟩
        else
          match er with
          | none => ⟨w, none, ws⟩
          | some Err.eof => ⟨w, none, ws⟩
          | some e => ⟨w, some e, ws⟩

/-- `CopyN(dst, src, n)` for a destination without `ReaderFrom`: run the
buffered loop through the limiting view, then fix up the result: a full
transfer is a success whatever the error was; a short transfer maps a `nil`
or `io.EOF` error to `io.ErrUnexpectedEOF` and keeps any other error. -/
def CopyN (ws : List WStep) (rs : List RStep) (n : Int) : Nat × Option Err :=
  if n ≤ 0 then (0, none)
  else
    let out := copyLoopN 32768 rs n ws 0
    if (out.written : Int) = n then (out.written, none)
    else
      match out.err with
      | none => (out.written, some Err.unexpectedEOF)
      | some Err.eof => (out.written, some Err.unexpectedEOF)
      | some e => (out.written, some e)

/-! ## Tee reader (tee.go, current version) -/

/-- One `teeReader.Read` call.  `rres` is what the wrapped source's `Read`
returned for this call (n bytes obtained, plus its error); `ws` is the side
writer's script.  Mirrors `p[:n]` to the side writer, then returns. -/
def teeReadCall (rres : Nat × Option Err) (ws : List WStep) :
    (Nat × Option Err) × List WStep :=
  let n := rres.1
  let er := rres.2
  if 0 < n then
    let step := dstWrite ws n
    let nw := step.1.1
    let ew := step.1.2
    match ew with
    | some e => ((n, some e), step.2)
    | none =>
      if nw ≠ n then ((n, some Err.shortWrite), step.2)
      else ((n, er), step.2)
  else ((n, er), ws)

/-! ## Backoff (backoff.go) -/

/-- 500µs in nanoseconds (`time.Duration` units). -/
def DefaultBackoffBase : Int := 500 * 1000

/-- 100ms in nanoseconds. -/
def DefaultBackoffMax : Int := 100 * 1000 * 1000

/-- Go's truncated (toward-zero) integer division by a natural number,
as performed by `/` on `int64` operands. -/
def tdivNat (a : Int) (b : Nat) : Int :=
  if 0 ≤ a then ((a.toNat / b : Nat) : Int) else -(((-a).toNat / b : Nat) : Int)

/-- The `Backoff` struct.  `fastSrc` is the 64-bit jitter PRNG state,
kept as a natural number below `2^64`. -/
structure Backoff where
  n : Int
  i : Int
  base : Int
  max : Int
  fastSrc : Nat
deriving Repr

/-- The zero value `Backoff{}` (freshly constructed, no setup call). -/
def Backoff.zero : Backoff := ⟨0, 0, 0, 0, 0⟩

/-- `applyJitter`: advance the xorshift state and perturb `d` by
`d * (r - 128) / 1024` for `r ∈ [0, 256)`, i.e. by at most ±12.5%.
Returns the new state and the jittered duration passed to `time.Sleep`. -/
def Backoff.applyJitter (b : Backoff) (d : Int) : Backoff × Int :=
  let s1 := b.fastSrc ^^^ ((b.fastSrc <<< 13) % 2 ^ 64)
  let s2 := s1 ^^^ (s1 >>> 7)
  let s3 := s2 ^^^ ((s2 <<< 17) % 2 ^ 64)
  let r : Nat := (s3 >>> 32) % 256
  let factor := tdivNat (d * ((r : Int) - 128)) 1024
  ({ b with fastSrc := s3 }, d + factor)

/-- `Wait()`.  Sleeping is modelled by returning the pre-jitter duration and
the jittered duration actually slept, along with the updated state.  The
time-derived lazy seed is a parameter: Go uses `uint64(UnixNano) | 1`. -/
def Backoff.Wait (seed : Nat) (b : Backoff) : Backoff × Int × Int :=
  let b :=
    if b.n = 0 then
      { b with
        n := 1
        base := if b.base ≤ 0 then DefaultBackoffBase else b.base
        max := if b.max ≤ 0 then DefaultBackoffMax else b.max
        fastSrc := if b.fastSrc = 0 then (seed % 2 ^ 64) ||| 1 else b.fastSrc }
    else b
  let d0 := b.n * b.base
  let d := if d0 > b.max then b.max else d0
  let j := b.applyJitter d
  let b := j.1
  let slept := j.2
  let i1 := b.i + 1
  let b := if i1 ≥ b.n then { b with i := 0, n := b.n + 1 } else { b with i := i1 }
  (b, d, slept)

/-- `Block()`: current progression tier (pure accessor). -/
def Backoff.Block (b : Backoff) : Int :=
  if b.n = 0 then 1 else b.n

/-- `Duration()`: the current pre-jitter duration (pure accessor). -/
def Backoff.Duration (b : Backoff) : Int :=
  let n := if b.n = 0 then 1 else b.n
  let base := if b.base ≤ 0 then DefaultBackoffBase else b.base
  let d := n * base
  let mx := if b.max ≤ 0 then DefaultBackoffMax else b.max
  if d > mx then mx else d

/-- `Reset()`. -/
def Backoff.Reset (b : Backoff) : Backoff := { b with n := 0, i := 0 }

/-- The state after `k` consecutive `Wait()` calls on a fresh `Backoff`. -/
def backoffAfter (seed : Nat) : Nat → Backoff
  | 0 => Backoff.zero
  | k + 1 => (Backoff.Wait seed (backoffAfter seed k)).1

/-! ## Contract predicates and auxiliary notions -/

/-- A writer script never claims to accept more bytes than it was offered
(part of the `io.Writer` contract every real writer obeys). -/
def WOk (ws : List WStep) : Prop :=
  ∀ g ∈ ws, ∀ len, (g len).1 ≤ len

/-- A writer script conforming to the destination contract of the spec:
it never over-accepts, and whenever it reports no error it accepted
everything it was offered. -/
def WConforming (ws : List WStep) : Prop :=
  ∀ g ∈ ws, ∀ len, (g len).1 ≤ len ∧ ((g len).2 = none → (g len).1 = len)

/-- A reader script whose every response (at capacity `cap`) delivers a
positive byte count with no error. -/
def RClean (cap : Nat) (rs : List RStep) : Prop :=
  ∀ f ∈ rs, (f cap).2 = none ∧ 0 < (f cap).1

/-- `tri b = 1 + 2 + ... + b`, the triangular numbers. -/
def tri : Nat → Nat
  | 0 => 0
  | m + 1 => tri m + (m + 1)

/-! ## Theorems -/

theorem tdivNat_ofNat (a b : Nat) : tdivNat (a : Int) b = ((a / b : Nat) : Int) := by
  simp [tdivNat]

theorem jitter_factor_bound (D rn : Nat) (h : rn < 256) :
    -((D / 8 : Nat) : Int) ≤ tdivNat ((D : Int) * ((rn : Int) - 128)) 1024 ∧
    tdivNat ((D : Int) * ((rn : Int) - 128)) 1024 ≤ ((D / 8 : Nat) : Int) := by
  by_cases hr : 128 ≤ rn
  · have hcast : (D : Int) * ((rn : Int) - 128) = ((D * (rn - 128) : Nat) : Int) := by
      push_cast [hr]
      ring
    rw [hcast, tdivNat_ofNat]
    have h1 : D * (rn - 128) ≤ D * 128 := Nat.mul_le_mul_left D (by omega)
    have h2 : D * (rn - 128) / 1024 ≤ D * 128 / 1024 := Nat.div_le_div_right h1
    have h3 : D * 128 / 1024 = D / 8 := by omega
    omega
  · have hcast : (D : Int) * ((rn : Int) - 128) = -((D * (128 - rn) : Nat) : Int) := by
      push_cast [le_of_not_le hr]
      ring
    rw [hcast]
    have h1 : D * (128 - rn) ≤ D * 128 := Nat.mul_le_mul_left D (by omega)
    have h2 : D * (128 - rn) / 1024 ≤ D * 128 / 1024 := Nat.div_le_div_right h1
    have h3 : D * 128 / 1024 = D / 8 := by omega
    rcases Nat.eq_zero_or_pos (D * (128 - rn)) with h0 | h0
    · rw [h0]
      simp [tdivNat]
      omega
    · have hneg : ¬ (0 : Int) ≤ -((D * (128 - rn) : Nat) : Int) := by omega
      unfold tdivNat
      rw [if_neg hneg]
      have htn : (-(-((D * (128 - rn) : Nat) : Int))).toNat = D * (128 - rn) := by omega
      rw [htn]
      omega

/-- C9: for every jitter-PRNG state and every pre-jitter duration `d ≥ 0`,
the jittered duration returned by `applyJitter` (the value handed to
`time.Sleep` by `Wait`) lies between `d - d/8` and `d + d/8` inclusive. -/
theorem backoff_jitter_within_bounds (b : Backoff) (d : Int) (hd : 0 ≤ d) :
    d - tdivNat d 8 ≤ (b.applyJitter d).2 ∧ (b.applyJitter d).2 ≤ d + tdivNat d 8 := by
  obtain ⟨D, rfl⟩ : ∃ D : Nat, d = (D : Int) := ⟨d.toNat, (Int.toNat_of_nonneg hd).symm⟩
  rw [tdivNat_ofNat]
  have hlt : (((b.fastSrc ^^^ (b.fastSrc <<< 13) % 2 ^ 64) ^^^
      ((b.fastSrc ^^^ (b.fastSrc <<< 13) % 2 ^ 64) >>> 7)) ^^^
      (((b.fastSrc ^^^ (b.fastSrc <<< 13) % 2 ^ 64) ^^^
      ((b.fastSrc ^^^ (b.fastSrc <<< 13) % 2 ^ 64) >>> 7)) <<< 17) % 2 ^ 64) >>> 32 % 256 < 256 :=
    Nat.mod_lt _ (by norm_num)
  have hb := jitter_factor_bound D _ hlt
  simp only [Backoff.applyJitter]
  constructor
  · omega
  · omega

/-- Witness for C9 at a concrete state and duration. -/
theorem backoff_jitter_within_bounds_witness :
    (0 : Int) ≤ 1000000 ∧
    (1000000 : Int) - tdivNat 1000000 8 ≤ (Backoff.zero.applyJitter 1000000).2 ∧
    (Backoff.zero.applyJitter 1000000).2 ≤ 1000000 + tdivNat 1000000 8 :=
  ⟨by norm_num, backoff_jitter_within_bounds Backoff.zero 1000000 (by norm_num)⟩

/-- C3: each `teeReader.Read` call returns, as its count, the number of
bytes obtained from the wrapped source in that call, whatever the side
writer does; a failing mirror write pairs the read count with the mirror's
error, a short error-free mirror write pairs it with `io.ErrShortWrite`,
and a complete mirror write pairs it with the source's own error. -/
theorem teeReader_read_count (n : Nat) (er : Option Err) (ws : List WStep) :
    (teeReadCall (n, er) ws).1.1 = n ∧
    (0 < n → ∀ e, (dstWrite ws n).1.2 = some e →
      (teeReadCall (n, er) ws).1 = (n, some e)) ∧
    (0 < n → (dstWrite ws n).1.2 = none → (dstWrite ws n).1.1 ≠ n →
      (teeReadCall (n, er) ws).1 = (n, some Err.shortWrite)) ∧
    (0 < n → (dstWrite ws n).1.2 = none → (dstWrite ws n).1.1 = n →
      (teeReadCall (n, er) ws).1 = (n, er)) := by
  rcases h : dstWrite ws n with ⟨⟨nw, ew⟩, ws'⟩
  by_cases hn : 0 < n
  · rcases ew with _ | e
    · by_cases hw : nw = n <;>
        simp [teeReadCall, h, hn, hw]
    · simp [teeReadCall, h, hn]
  · simp [teeReadCall, h, hn]

/-- Witness for C3: source delivered 2 bytes with a would-block signal; the
mirror write fails after 1 byte; the call still reports 2 bytes. -/
theorem teeReader_read_count_witness :
    (0 : Nat) < 2 ∧
    (dstWrite [fun _ => (1, some (Err.other 3))] 2).1.2 = some (Err.other 3) ∧
    (teeReadCall (2, some Err.wouldBlock) [fun _ => (1, some (Err.other 3))]).1 =
      (2, some (Err.other 3)) := by
  refine ⟨by decide, by decide, ?_⟩
  exact (teeReader_read_count 2 (some Err.wouldBlock) [fun _ => (1, some (Err.other 3))]).2.1
    (by decide) (Err.other 3) (by decide)

/-- C7: for a positive limit `n`, when the underlying transfer moved fewer
than `n` bytes, `CopyN` maps a `nil` or `io.EOF` transfer error to
`io.ErrUnexpectedEOF` and passes any other transfer error through, always
with the partial count; in particular copying with limit 5 from a source
containing exactly "abc" yields `(3, io.ErrUnexpectedEOF)`. -/
theorem copyN_short_transfer (ws : List WStep) (rs : List RStep) (n : Int)
    (hn : 0 < n) :
    (((copyLoopN 32768 rs n ws 0).written : Int) ≠ n →
      ((copyLoopN 32768 rs n ws 0).err = none ∨
       (copyLoopN 32768 rs n ws 0).err = some Err.eof) →
      CopyN ws rs n = ((copyLoopN 32768 rs n ws 0).written, some Err.unexpectedEOF)) ∧
    (((copyLoopN 32768 rs n ws 0).written : Int) ≠ n →
      ∀ e, e ≠ Err.eof → (copyLoopN 32768 rs n ws 0).err = some e →
      CopyN ws rs n = ((copyLoopN 32768 rs n ws 0).written, some e)) ∧
    CopyN [] [fun c => (min 3 c, none)] 5 = (3, some Err.unexpectedEOF) := by
  have hn' : ¬ n ≤ 0 := by omega
  refine ⟨?_, ?_, by decide⟩
  · intro hne herr
    rcases herr with h | h <;> simp [CopyN, hn', hne, h]
  · intro hne e he h
    cases e <;> simp_all [CopyN, hn', hne]

/-- Witness for C7: limit 5 against a source holding three bytes. -/
theorem copyN_short_transfer_witness :
    (0 : Int) < 5 ∧
    ((copyLoopN 32768 [fun c => (min 3 c, none)] 5 [] 0).written : Int) ≠ 5 ∧
    ((copyLoopN 32768 [fun c => (min 3 c, none)] 5 [] 0).err = none ∨
     (copyLoopN 32768 [fun c => (min 3 c, none)] 5 [] 0).err = some Err.eof) ∧
    CopyN [] [fun c => (min 3 c, none)] 5 =
      ((copyLoopN 32768 [fun c => (min 3 c, none)] 5 [] 0).written, some Err.unexpectedEOF) :=
  ⟨by norm_num, by decide, by decide,
    (copyN_short_transfer [] [fun c => (min 3 c, none)] 5 (by norm_num)).1
      (by decide) (by decide)⟩

/-- C10 (implicit): whenever the underlying transfer inside `CopyN` reports
exactly `n` bytes, `CopyN` returns `(n, nil)`, discarding whatever error
(including ErrWouldBlock / ErrMore) accompanied that full count; and the
returned count equals `n` exactly when the returned error is `nil`. -/
theorem copyN_full_iff_nil (ws : List WStep) (rs : List RStep) (n : Int)
    (hn : 0 < n) :
    (((copyLoopN 32768 rs n ws 0).written : Int) = n →
      CopyN ws rs n = ((copyLoopN 32768 rs n ws 0).written, none)) ∧
    ((((CopyN ws rs n).1 : Int) = n) ↔ (CopyN ws rs n).2 = none) := by
  have hn' : ¬ n ≤ 0 := by omega
  constructor
  · intro h
    simp [CopyN, hn', h]
  · by_cases h : ((copyLoopN 32768 rs n ws 0).written : Int) = n
    · simp [CopyN, hn', h]
    · rcases herr : (copyLoopN 32768 rs n ws 0).err with _ | e
      · simp [CopyN, hn', h, herr]
      · cases e <;> simp [CopyN, hn', herr, h]

/-- Witness for C10: a source that hands over all 5 requested bytes together
with ErrWouldBlock; `CopyN` reports `(5, nil)`. -/
theorem copyN_full_iff_nil_witness :
    (0 : Int) < 5 ∧
    ((copyLoopN 32768 [fun c => (min 5 c, some Err.wouldBlock)] 5 [] 0).written : Int) = 5 ∧
    CopyN [] [fun c => (min 5 c, some Err.wouldBlock)] 5 =
      ((copyLoopN 32768 [fun c => (min 5 c, some Err.wouldBlock)] 5 [] 0).written, none) :=
  ⟨by norm_num, by decide,
    (copyN_full_iff_nil [] [fun c => (min 5 c, some Err.wouldBlock)] 5 (by norm_num)).1
      (by decide)⟩

/-- C6: the generic loop absorbs exactly two read outcomes — a zero-byte
error-free read (immediate stop, reported as success with the accumulated
count, regardless of what is left in either script) and a clean
end-of-stream (success) — and surfaces every other read outcome unchanged
together with the accumulated count (shown against a destination that
accepts the freshly read bytes). -/
theorem copy_read_absorption (cap : Nat) (sk : Bool) (sf : Option Err)
    (f : RStep) (rest : List RStep) (pos : Int) (ws : List WStep) (w : Nat) :
    (f cap = (0, none) →
      copyLoop cap sk sf (f :: rest) pos ws w = ⟨w, none, pos, ws⟩) ∧
    (∀ nr, f cap = (nr, some Err.eof) →
      copyLoop cap sk sf (f :: rest) pos [] w =
        ⟨w + nr, none, pos + (nr : Int), []⟩) ∧
    (∀ nr e, e ≠ Err.eof → f cap = (nr, some e) →
      copyLoop cap sk sf (f :: rest) pos [] w =
        ⟨w + nr, some e, pos + (nr : Int), []⟩) := by
  refine ⟨?_, ?_, ?_⟩
  · intro hf
    simp [copyLoop, copyIter, hf]
  · intro nr hf
    by_cases hnr : 0 < nr
    · simp [copyLoop, copyIter, hf, hnr, dstWrite]
    · have h0 : nr = 0 := by omega
      subst h0
      simp [copyLoop, copyIter, hf]
  · intro nr e he hf
    by_cases hnr : 0 < nr
    · cases e <;>
        first
          | exact absurd rfl he
          | simp [copyLoop, copyIter, hf, hnr, dstWrite]
    · have h0 : nr = 0 := by omega
      subst h0
      cases e <;>
        first
          | exact absurd rfl he
          | simp [copyLoop, copyIter, hf]

/-- Witness for C6 at three concrete reads: a `(0, nil)` read, a clean
end-of-stream, and a surfaced would-block. -/
theorem copy_read_absorption_witness :
    ((fun _ => (0, none) : RStep) 8 = (0, none) ∧
      copyLoop 8 true none [fun _ => (0, none), fun _ => (7, none)] 3 [] 5 =
        ⟨5, none, 3, []⟩) ∧
    ((fun _ => (4, some Err.eof) : RStep) 8 = (4, some Err.eof) ∧
      copyLoop 8 true none [fun _ => (4, some Err.eof)] 3 [] 5 =
        ⟨5 + 4, none, 3 + (4 : Int), []⟩) ∧
    (Err.wouldBlock ≠ Err.eof ∧
      (fun _ => (4, some Err.wouldBlock) : RStep) 8 = (4, some Err.wouldBlock) ∧
      copyLoop 8 true none [fun _ => (4, some Err.wouldBlock)] 3 [] 5 =
        ⟨5 + 4, some Err.wouldBlock, 3 + (4 : Int), []⟩) :=
  ⟨⟨rfl, (copy_read_absorption 8 true none (fun _ => (0, none))
      [fun _ => (7, none)] 3 [] 5).1 rfl⟩,
   ⟨rfl, (copy_read_absorption 8 true none (fun _ => (4, some Err.eof)) [] 3 [] 5).2.1
      4 rfl⟩,
   ⟨by decide, rfl,
    (copy_read_absorption 8 true none (fun _ => (4, some Err.wouldBlock)) [] 3 [] 5).2.2
      4 Err.wouldBlock (by decide) rfl⟩⟩

theorem WOk_tail {g : WStep} {ws : List WStep} (h : WOk (g :: ws)) : WOk ws :=
  fun g' hm len => h g' (List.mem_cons_of_mem _ hm) len

/-- The loop iteration on a read whose freshly read bytes meet a partial
write with a semantic error: the three rollback outcomes (seek succeeds,
seek fails, source not seekable). -/
theorem copyIter_partial_semantic (cap : Nat) (f : RStep) (g : WStep)
    (ws : List WStep) (pos : Int) (w nr k : Nat) (er : Option Err) (e : Err)
    (hf : f cap = (nr, er)) (hg : g nr = (k, some e)) (hnr : 0 < nr)
    (hk : k < nr) (he : isSemantic e = true) :
    copyIter cap true none f pos (g :: ws) w =
      Sum.inr ⟨w + k, some e, pos + (k : Int), ws⟩ ∧
    (∀ se, copyIter cap true (some se) f pos (g :: ws) w =
      Sum.inr ⟨w + k, some se, pos + (nr : Int), ws⟩) ∧
    (∀ sf, copyIter cap false sf f pos (g :: ws) w =
      Sum.inr ⟨w + k, some Err.noSeeker, pos + (nr : Int), ws⟩) := by
  refine ⟨?_, ?_, ?_⟩
  · simp only [copyIter, hf, dstWrite, hnr, if_true, hg]
    simp [hk, he]
  · intro se
    simp only [copyIter, hf, dstWrite, hnr, if_true, hg]
    simp [hk, he]
  · intro sf
    simp only [copyIter, hf, dstWrite, hnr, if_true, hg]
    simp [hk, he]

/-- Each continuing iteration of the plain loop advances the source
position by exactly the bytes the destination accepted in it; a returning
iteration that ends with a semantic signal does too. -/
theorem copyIter_advance (cap : Nat) (f : RStep) (pos : Int) (ws : List WStep)
    (w : Nat) (hok : WOk ws) :
    (∀ pos1 ws1 w1, copyIter cap true none f pos ws w = Sum.inl (pos1, ws1, w1) →
      WOk ws1 ∧ w ≤ w1 ∧ pos1 + (w : Int) = pos + (w1 : Int)) ∧
    (∀ out, copyIter cap true none f pos ws w = Sum.inr out →
      ∀ e, isSemantic e = true → out.err = some e →
      out.pos + (w : Int) = pos + (out.written : Int)) := by
  rcases hfc : f cap with ⟨nr, er⟩
  by_cases hnr : 0 < nr
  · rcases ws with _ | ⟨g, rest⟩
    · constructor
      · intro pos1 ws1 w1 h
        rcases er with _ | e'
        · simp only [copyIter, hfc, dstWrite, hnr, if_true] at h
          simp at h
          obtain ⟨h1, h2, h3⟩ := h
          subst h1 h2 h3
          refine ⟨hok, by omega, by push_cast; ring⟩
        · cases e' <;> simp [copyIter, hfc, dstWrite, hnr] at h
      · intro out h e he herr
        rcases er with _ | e'
        · simp [copyIter, hfc, dstWrite, hnr] at h
        · cases e' <;>
            · simp [copyIter, hfc, dstWrite, hnr] at h
              subst h
              simp_all <;> omega
    · have hng : (g nr).1 ≤ nr := hok g (List.mem_cons_self _ _) nr
      rcases hgc : g nr with ⟨nw, ew⟩
      rw [hgc] at hng
      rcases ew with _ | e'
      · -- error-free write
        by_cases hfull : nw = nr
        · subst hfull
          constructor
          · intro pos1 ws1 w1 h
            rcases er with _ | e'
            · simp only [copyIter, hfc, dstWrite, hnr, if_true, hgc] at h
              simp at h
              obtain ⟨h1, h2, h3⟩ := h
              subst h1 h2 h3
              refine ⟨WOk_tail hok, by omega, by push_cast; ring⟩
            · cases e' <;> simp [copyIter, hfc, dstWrite, hnr, hgc] at h
          · intro out h e he herr
            rcases er with _ | e'
            · simp [copyIter, hfc, dstWrite, hnr, hgc] at h
            · cases e' <;>
                · simp [copyIter, hfc, dstWrite, hnr, hgc] at h
                  subst h
                  simp_all <;> omega
        · -- short error-free write: ErrShortWrite, which is not semantic
          constructor
          · intro pos1 ws1 w1 h
            simp [copyIter, hfc, dstWrite, hnr, hgc, hfull] at h
          · intro out h e he herr
            simp [copyIter, hfc, dstWrite, hnr, hgc, hfull] at h
            subst h
            simp at herr
            rw [← herr] at he
            simp [isSemantic] at he
      · -- write error
        constructor
        · intro pos1 ws1 w1 h
          by_cases hcond : nw < nr ∧ isSemantic e' = true
          · simp [copyIter, hfc, dstWrite, hnr, hgc, hcond] at h
          · simp [copyIter, hfc, dstWrite, hnr, hgc, hcond] at h
        · intro out h e he herr
          by_cases hcond : nw < nr ∧ isSemantic e' = true
          · simp [copyIter, hfc, dstWrite, hnr, hgc, hcond] at h
            subst h
            simp at herr ⊢
            ring
          · simp [copyIter, hfc, dstWrite, hnr, hgc, hcond] at h
            subst h
            simp at herr hng ⊢
            rw [herr] at hcond
            have hfull : nw = nr := by
              rcases Decidable.not_and_iff_or_not.mp hcond with h' | h'
              · omega
              · exact absurd he h'
            omega
  · constructor
    · intro pos1 ws1 w1 h
      rcases er with _ | e'
      · simp [copyIter, hfc, hnr] at h
      · cases e' <;> simp [copyIter, hfc, hnr] at h
    · intro out h e he herr
      have h0 : nr = 0 := by omega
      subst h0
      rcases er with _ | e'
      · simp [copyIter, hfc, hnr] at h
        subst h
        simp_all
      · cases e' <;>
          · simp [copyIter, hfc, hnr] at h
            subst h
            simp_all

/-- Bytes-accepted/position invariant of the plain loop: whenever the loop
on a seekable, rollback-capable source ends with a semantic signal, the
source position has advanced by exactly the bytes the destination accepted. -/
theorem copyLoop_semantic_advance (cap : Nat) :
    ∀ (rs : List RStep) (ws : List WStep) (pos : Int) (w : Nat), WOk ws →
    ∀ e, isSemantic e = true →
    (copyLoop cap true none rs pos ws w).err = some e →
    (copyLoop cap true none rs pos ws w).pos + (w : Int) =
      pos + ((copyLoop cap true none rs pos ws w).written : Int) := by
  intro rs
  induction rs with
  | nil =>
    intro ws pos w hok e he herr
    simp [copyLoop] at herr
  | cons f rest ih =>
    intro ws pos w hok e he herr
    rcases hiter : copyIter cap true none f pos ws w with ⟨⟨pos1, ws1, w1⟩⟩ | out
    · obtain ⟨hok1, hw1, hadv⟩ := (copyIter_advance cap f pos ws w hok).1 pos1 ws1 w1 hiter
      simp only [copyLoop, hiter] at herr ⊢
      have := ih ws1 pos1 w1 hok1 e he herr
      omega
    · have := (copyIter_advance cap f pos ws w hok).2 out hiter e he
      simp only [copyLoop, hiter] at herr ⊢
      exact this herr

/-- C1: when a write of the `nr` freshly read bytes comes back with a
semantic signal having accepted only `k < nr` bytes and the source is
seekable, the loop seeks the source back by exactly `nr - k` (final
position `pos + k`) and returns the accumulated count with the signal
unchanged; if the rollback seek fails, the seek error is returned in its
place, still with the accumulated count; and whenever such a run ends with
a semantic signal, the source position has advanced by exactly the total
bytes the destination accepted. -/
theorem copy_partial_write_rollback (cap : Nat) (f : RStep) (g : WStep)
    (rest : List RStep) (ws : List WStep) (pos : Int) (w nr k : Nat)
    (er : Option Err) (e : Err) (hf : f cap = (nr, er)) (hg : g nr = (k, some e))
    (hnr : 0 < nr) (hk : k < nr) (he : isSemantic e = true) :
    copyLoop cap true none (f :: rest) pos (g :: ws) w =
      ⟨w + k, some e, pos + (k : Int), ws⟩ ∧
    (∀ se, copyLoop cap true (some se) (f :: rest) pos (g :: ws) w =
      ⟨w + k, some se, pos + (nr : Int), ws⟩) ∧
    (∀ rs ws' pos' w', WOk ws' → ∀ e', isSemantic e' = true →
      (copyLoop cap true none rs pos' ws' w').err = some e' →
      (copyLoop cap true none rs pos' ws' w').pos + (w' : Int) =
        pos' + ((copyLoop cap true none rs pos' ws' w').written : Int)) := by
  obtain ⟨h1, h2, _⟩ := copyIter_partial_semantic cap f g ws pos w nr k er e hf hg hnr hk he
  refine ⟨?_, ?_, ?_⟩
  · simp only [copyLoop, h1]
  · intro se
    simp only [copyLoop, h2 se]
  · intro rs ws' pos' w' hok e' he' herr
    exact copyLoop_semantic_advance cap rs ws' pos' w' hok e' he' herr

/-- Witness for C1: source delivers 4 bytes, destination accepts 2 with
ErrWouldBlock; with a working seeker the copy reports `(2, ErrWouldBlock)`
and the position advances by 2; with a failing seeker the seek error is
reported instead. -/
theorem copy_partial_write_rollback_witness :
    ((fun _ => (4, none) : RStep) 16 = (4, none) ∧
     (fun _ => (2, some Err.wouldBlock) : WStep) 4 = (2, some Err.wouldBlock) ∧
     0 < 4 ∧ 2 < 4 ∧ isSemantic Err.wouldBlock = true) ∧
    copyLoop 16 true none [fun _ => (4, none)] 10 [fun _ => (2, some Err.wouldBlock)] 3 =
      ⟨3 + 2, some Err.wouldBlock, 10 + (2 : Int), []⟩ ∧
    copyLoop 16 true (some (Err.other 9)) [fun _ => (4, none)]
        10 [fun _ => (2, some Err.wouldBlock)] 3 =
      ⟨3 + 2, some (Err.other 9), 10 + (4 : Int), []⟩ :=
  ⟨⟨rfl, rfl, by decide, by decide, by decide⟩,
   (copy_partial_write_rollback 16 (fun _ => (4, none)) (fun _ => (2, some Err.wouldBlock))
      [] [] 10 3 4 2 none Err.wouldBlock rfl rfl (by decide) (by decide) (by decide)).1,
   (copy_partial_write_rollback 16 (fun _ => (4, none)) (fun _ => (2, some Err.wouldBlock))
      [] [] 10 3 4 2 none Err.wouldBlock rfl rfl (by decide) (by decide) (by decide)).2.1
     (Err.other 9)⟩

/-- A partial write with a semantic signal under a policy that decides
Return behaves like the plain engine at that point: on a non-seekable
source it stops with ErrNoSeeker. -/
theorem copyIterP_partial_noseeker (cap : Nat) (pol : Policy) (sf : Option Err)
    (f : RStep) (g : WStep) (ws : List WStep) (pos : Int) (w nr k : Nat)
    (er : Option Err) (e : Err) (log : List Op)
    (hf : f cap = (nr, er)) (hg : g nr = (k, some e)) (hnr : 0 < nr)
    (hk : k < nr) (he : isSemantic e = true)
    (hwb : e = Err.wouldBlock → pol.onWouldBlock Op.copyWrite = PolicyAction.ret)
    (hmo : e = Err.more → pol.onMore Op.copyWrite = PolicyAction.ret) :
    copyIterP cap pol false sf f pos (g :: ws) w log =
      Sum.inr ⟨w + k, some Err.noSeeker, pos + (nr : Int), ws, log⟩ := by
  have hsem : e = Err.wouldBlock ∨ e = Err.more := by
    cases e <;> simp [isSemantic] at he <;> simp
  have hstop : writeLoopP pol nr (g :: ws) 0 log = WRes.stop ws k log e := by
    rcases hsem with h | h <;>
      · subst h
        rw [writeLoopP]
        first
          | simp [hnr, hg, hwb rfl]
          | simp [hnr, hg, hmo rfl]
  simp only [copyIterP, hf, hnr, if_true, hstop]
  simp [he, hk]

/-- C2: a partial write with a semantic signal on a non-seekable source
makes both the plain engine and the policy engine (when the policy decides
Return) report the accumulated count with the distinct ErrNoSeeker — never
the semantic signal alone, and never a silent success. -/
theorem copy_partial_write_noseeker (cap : Nat) (pol : Policy) (sf : Option Err)
    (f : RStep) (g : WStep) (rest : List RStep) (ws : List WStep) (pos : Int)
    (w nr k : Nat) (er : Option Err) (e : Err)
    (hf : f cap = (nr, er)) (hg : g nr = (k, some e)) (hnr : 0 < nr)
    (hk : k < nr) (he : isSemantic e = true)
    (hwb : e = Err.wouldBlock → pol.onWouldBlock Op.copyWrite = PolicyAction.ret)
    (hmo : e = Err.more → pol.onMore Op.copyWrite = PolicyAction.ret) :
    copyLoop cap false sf (f :: rest) pos (g :: ws) w =
      ⟨w + k, some Err.noSeeker, pos + (nr : Int), ws⟩ ∧
    copyLoopP cap pol false sf (f :: rest) pos (g :: ws) w [] =
      ⟨w + k, some Err.noSeeker, pos + (nr : Int), ws, []⟩ ∧
    Err.noSeeker ≠ e ∧ (some Err.noSeeker ≠ (none : Option Err)) := by
  obtain ⟨_, _, h3⟩ :=
    copyIter_partial_semantic cap f g ws pos w nr k er e hf hg hnr hk he
  refine ⟨?_, ?_, ?_, by simp⟩
  · -- the iteration lemma for the non-seekable case applies at any seekFail
    simp only [copyLoop, h3 sf]
  · have := copyIterP_partial_noseeker cap pol sf f g ws pos w nr k er e []
      hf hg hnr hk he hwb hmo
    simp only [copyLoopP, this]
  · intro hcontra
    rw [← hcontra] at he
    simp [isSemantic] at he

/-- Witness for C2: non-seekable source, 4 bytes read, 1 byte accepted with
ErrMore; both engines (plain, and policy-aware under ReturnPolicy) report
`(1, ErrNoSeeker)`. -/
theorem copy_partial_write_noseeker_witness :
    ((fun _ => (4, none) : RStep) 16 = (4, none) ∧
     (fun _ => (1, some Err.more) : WStep) 4 = (1, some Err.more) ∧
     0 < 4 ∧ 1 < 4 ∧ isSemantic Err.more = true ∧
     ReturnPolicy.onWouldBlock Op.copyWrite = PolicyAction.ret ∧
     ReturnPolicy.onMore Op.copyWrite = PolicyAction.ret) ∧
    copyLoop 16 false none [fun _ => (4, none)] 0 [fun _ => (1, some Err.more)] 0 =
      ⟨0 + 1, some Err.noSeeker, 0 + (4 : Int), []⟩ ∧
    copyLoopP 16 ReturnPolicy false none [fun _ => (4, none)]
        0 [fun _ => (1, some Err.more)] 0 [] =
      ⟨0 + 1, some Err.noSeeker, 0 + (4 : Int), [], []⟩ :=
  ⟨⟨rfl, rfl, by decide, by decide, by decide, by decide, by decide⟩,
   (copy_partial_write_noseeker 16 ReturnPolicy none (fun _ => (4, none))
      (fun _ => (1, some Err.more)) [] [] 0 0 4 1 none Err.more rfl rfl
      (by decide) (by decide) (by decide) (fun _ => rfl) (fun _ => rfl)).1,
   (copy_partial_write_noseeker 16 ReturnPolicy none (fun _ => (4, none))
      (fun _ => (1, some Err.more)) [] [] 0 0 4 1 none Err.more rfl rfl
      (by decide) (by decide) (by decide) (fun _ => rfl) (fun _ => rfl)).2.1⟩

theorem writeLoopP_nil (pol : Policy) (nr : Nat) (log : List Op) (hnr : 0 < nr) :
    writeLoopP pol nr [] 0 log = WRes.done [] nr log := by
  rw [writeLoopP]
  simp [hnr]

/-- Over a stretch of error-free positive reads into an accepting
destination, the policy loop accumulates every byte, succeeds, and never
consults the policy. -/
theorem copyLoopP_clean (cap : Nat) (pol : Policy) (sk : Bool) (sf : Option Err) :
    ∀ (rs : List RStep), RClean cap rs → ∀ (pos : Int) (w : Nat) (log : List Op),
    copyLoopP cap pol sk sf rs pos [] w log =
      ⟨w + (rs.map fun s => (s cap).1).sum, none,
       pos + (((rs.map fun s => (s cap).1).sum : Nat) : Int), [], log⟩ := by
  intro rs
  induction rs with
  | nil =>
    intro _ pos w log
    simp [copyLoopP]
  | cons f rest ih =>
    intro hclean pos w log
    obtain ⟨hfe, hfp⟩ := hclean f (List.mem_cons_self _ _)
    have hrest : RClean cap rest := fun f' hm => hclean f' (List.mem_cons_of_mem _ hm)
    rcases hfc : f cap with ⟨nr, er⟩
    rw [hfc] at hfe hfp
    simp only at hfe hfp
    subst hfe
    have hiter : copyIterP cap pol sk sf f pos [] w log =
        Sum.inl (pos + (nr : Int), [], w + nr, log) := by
      simp only [copyIterP, hfc, hfp, if_true, writeLoopP_nil pol nr log hfp]
    have hstep : copyLoopP cap pol sk sf (f :: rest) pos [] w log =
        copyLoopP cap pol sk sf rest (pos + (nr : Int)) [] (w + nr) log := by
      simp only [copyLoopP, hiter]
    rw [hstep, ih hrest]
    simp only [POut.mk.injEq, List.map_cons, List.sum_cons, hfc]
    generalize (List.map (fun s => (s cap).1) rest).sum = S
    refine ⟨by omega, trivial, by omega, trivial, trivial⟩

/-- C4: with a policy that retries read-side WouldBlock, copying from a
source that first reports `(0, ErrWouldBlock)` once and thereafter delivers
its remaining bytes error-free until a clean end-of-stream returns the
total delivered bytes as a success, with the yield hook invoked exactly
once (for the read site) and the already-accumulated count preserved
across the retry. -/
theorem copyPolicy_retry_convergence (cap : Nat) (pol : Policy) (sk : Bool)
    (sf : Option Err) (steps : List RStep) (pos : Int) (w : Nat)
    (hp : pol.onWouldBlock Op.copyRead = PolicyAction.retry)
    (hclean : RClean cap steps) :
    copyLoopP cap pol sk sf ((fun _ => (0, some Err.wouldBlock)) :: steps) pos [] w [] =
      ⟨w + (steps.map fun s => (s cap).1).sum, none,
       pos + (((steps.map fun s => (s cap).1).sum : Nat) : Int), [],
       [Op.copyRead]⟩ := by
  have hiter : copyIterP cap pol sk sf (fun _ => (0, some Err.wouldBlock)) pos [] w [] =
      Sum.inl (pos, [], w, [Op.copyRead]) := by
    simp [copyIterP, hp]
  simp only [copyLoopP, hiter, copyLoopP_clean cap pol sk sf steps hclean]

/-- Witness for C4: `(0, ErrWouldBlock)` then 3 clean bytes, under
YieldPolicy, accumulates to `(3, nil)` with one recorded yield. -/
theorem copyPolicy_retry_convergence_witness :
    YieldPolicy.onWouldBlock Op.copyRead = PolicyAction.retry ∧
    RClean 32768 ([fun _ => (3, none)] : List RStep) ∧
    copyLoopP 32768 YieldPolicy true none
        [fun _ => (0, some Err.wouldBlock), fun _ => (3, none)] 0 [] 0 [] =
      ⟨0 + (([fun _ => (3, none)] : List RStep).map fun s => (s 32768).1).sum, none,
       0 + (((([fun _ => (3, none)] : List RStep).map fun s => (s 32768).1).sum : Nat) : Int),
       [], [Op.copyRead]⟩ := by
  have hclean : RClean 32768 ([fun _ => (3, none)] : List RStep) := by
    intro f hm
    rw [List.mem_singleton] at hm
    subst hm
    exact ⟨rfl, by decide⟩
  exact ⟨rfl, hclean,
    copyPolicy_retry_convergence 32768 YieldPolicy true none
      ([fun _ => (3, none)] : List RStep) 0 0 rfl hclean⟩

theorem ReturnPolicy_onWouldBlock (op : Op) :
    ReturnPolicy.onWouldBlock op = PolicyAction.ret := rfl

theorem ReturnPolicy_onMore (op : Op) :
    ReturnPolicy.onMore op = PolicyAction.ret := rfl

theorem writeLoopP_return_stop (nr : Nat) (g : WStep) (rest : List WStep)
    (log : List Op) (e : Err) (hnr : 0 < nr) (hge : (g nr).2 = some e) :
    writeLoopP ReturnPolicy nr (g :: rest) 0 log = WRes.stop rest (g nr).1 log e := by
  rw [writeLoopP]
  rcases hg : g nr with ⟨nw, ew⟩
  rw [hg] at hge
  simp only at hge
  subst hge
  simp only [hnr, if_true, Nat.sub_zero, hg]
  cases e <;>
    try simp [ReturnPolicy_onWouldBlock, ReturnPolicy_onMore]

theorem writeLoopP_return_ok (nr : Nat) (g : WStep) (rest : List WStep)
    (log : List Op) (hnr : 0 < nr) (hge : (g nr).2 = none) (hfull : (g nr).1 = nr) :
    writeLoopP ReturnPolicy nr (g :: rest) 0 log = WRes.done rest nr log := by
  rw [writeLoopP]
  rcases hg : g nr with ⟨nw, ew⟩
  rw [hg] at hge hfull
  simp only at hge hfull
  subst hge
  subst hfull
  simp only [hnr, if_true, Nat.sub_zero, hg]
  have h0 : ¬ nw = 0 := by omega
  simp only [h0, if_false]
  have hlt : ¬ 0 + nw < nw := by omega
  rw [writeLoopP.eq_def]
  simp [hlt]

/-- One iteration of the policy engine under the Always-return policy on a
contract-conforming destination script equals the plain iteration (with the
yield log threaded through unchanged). -/
theorem copyIterP_return_eq (cap : Nat) (sk : Bool) (sf : Option Err) (f : RStep)
    (pos : Int) (ws : List WStep) (w : Nat) (log : List Op) (hconf : WConforming ws) :
    copyIterP cap ReturnPolicy sk sf f pos ws w log =
      (match copyIter cap sk sf f pos ws w with
       | Sum.inl (p1, ws1, w1) => Sum.inl (p1, ws1, w1, log)
       | Sum.inr out => Sum.inr ⟨out.written, out.err, out.pos, out.dst, log⟩) := by
  rcases hfc : f cap with ⟨nr, er⟩
  by_cases hnr : 0 < nr
  · rcases ws with _ | ⟨g, rest⟩
    · have hwl := writeLoopP_nil ReturnPolicy nr log hnr
      rcases er with _ | e
      · simp [copyIter, copyIterP, hfc, hnr, dstWrite, hwl]
      · cases e <;>
          simp [copyIter, copyIterP, hfc, hnr, dstWrite, hwl,
            ReturnPolicy_onWouldBlock, ReturnPolicy_onMore]
    · obtain ⟨hle, hfull⟩ := hconf g (List.mem_cons_self _ _) nr
      rcases hgc : g nr with ⟨nw, ew⟩
      rw [hgc] at hle hfull
      simp only at hle hfull
      rcases ew with _ | e
      · have hnwr : nw = nr := hfull rfl
        subst hnwr
        have hwl := writeLoopP_return_ok nw g rest log hnr
          (by rw [hgc]) (by rw [hgc])
        rcases er with _ | e'
        · simp [copyIter, copyIterP, hfc, hnr, dstWrite, hgc, hwl]
        · cases e' <;>
            simp [copyIter, copyIterP, hfc, hnr, dstWrite, hgc, hwl,
              ReturnPolicy_onWouldBlock, ReturnPolicy_onMore]
      · have hwl := writeLoopP_return_stop nr g rest log e hnr (by rw [hgc])
        rw [hgc] at hwl
        simp only at hwl
        by_cases hsem : isSemantic e = true
        · by_cases hlt : nw < nr
          · rcases sk with _ | _ <;> rcases sf with _ | se <;>
              simp [copyIter, copyIterP, hfc, hnr, dstWrite, hgc, hwl, hsem, hlt]
          · rcases sk with _ | _ <;> rcases sf with _ | se <;>
              simp [copyIter, copyIterP, hfc, hnr, dstWrite, hgc, hwl, hsem, hlt]
        · simp [copyIter, copyIterP, hfc, hnr, dstWrite, hgc, hwl, hsem]
  · rcases er with _ | e
    · simp [copyIter, copyIterP, hfc, hnr]
    · cases e <;>
        simp [copyIter, copyIterP, hfc, hnr,
          ReturnPolicy_onWouldBlock, ReturnPolicy_onMore]

/-- A continuing plain iteration leaves the writer script intact or
consumes exactly its head. -/
theorem copyIter_inl_dst (cap : Nat) (sk : Bool) (sf : Option Err) (f : RStep)
    (pos : Int) (ws : List WStep) (w : Nat) :
    ∀ p1 ws1 w1, copyIter cap sk sf f pos ws w = Sum.inl (p1, ws1, w1) →
      ws1 = ws ∨ ws1 = ws.tail := by
  intro p1 ws1 w1 h
  rcases hfc : f cap with ⟨nr, er⟩
  by_cases hnr : 0 < nr
  · rcases ws with _ | ⟨g, rest⟩
    · rcases er with _ | e
      · simp [copyIter, hfc, hnr, dstWrite] at h
        exact Or.inl h.2.1
      · cases e <;> simp [copyIter, hfc, hnr, dstWrite] at h
    · rcases hgc : g nr with ⟨nw, ew⟩
      rcases ew with _ | e
      · by_cases hfull : nw = nr
        · subst hfull
          rcases er with _ | e'
          · simp [copyIter, hfc, hnr, dstWrite, hgc] at h
            exact Or.inr h.2.1.symm
          · cases e' <;> simp [copyIter, hfc, hnr, dstWrite, hgc] at h
        · simp [copyIter, hfc, hnr, dstWrite, hgc, hfull] at h
      · by_cases hcond : nw < nr ∧ isSemantic e = true
        · rcases sk with _ | _ <;> rcases sf with _ | se <;>
            simp [copyIter, hfc, hnr, dstWrite, hgc, hcond] at h
        · simp [copyIter, hfc, hnr, dstWrite, hgc, hcond] at h
  · rcases er with _ | e
    · simp [copyIter, hfc, hnr] at h
    · cases e <;> simp [copyIter, hfc, hnr] at h

theorem WConforming_tail {ws : List WStep} (h : WConforming ws) :
    WConforming ws.tail := by
  rcases ws with _ | ⟨g, rest⟩
  · exact h
  · exact fun g' hm len => h g' (List.mem_cons_of_mem _ hm) len

/-- The policy loop under the Always-return policy coincides with the plain
loop on contract-conforming destinations, with the yield log untouched. -/
theorem copyLoopP_return_equiv (cap : Nat) (sk : Bool) (sf : Option Err) :
    ∀ (rs : List RStep) (ws : List WStep) (pos : Int) (w : Nat) (log : List Op),
    WConforming ws →
    copyLoopP cap ReturnPolicy sk sf rs pos ws w log =
      ⟨(copyLoop cap sk sf rs pos ws w).written, (copyLoop cap sk sf rs pos ws w).err,
       (copyLoop cap sk sf rs pos ws w).pos, (copyLoop cap sk sf rs pos ws w).dst,
       log⟩ := by
  intro rs
  induction rs with
  | nil =>
    intro ws pos w log hconf
    simp [copyLoop, copyLoopP]
  | cons f rest ih =>
    intro ws pos w log hconf
    have heq := copyIterP_return_eq cap sk sf f pos ws w log hconf
    rcases hiter : copyIter cap sk sf f pos ws w with ⟨⟨p1, ws1, w1⟩⟩ | out
    · rw [hiter] at heq
      simp only at heq
      have hconf1 : WConforming ws1 := by
        rcases copyIter_inl_dst cap sk sf f pos ws w p1 ws1 w1 hiter with h | h
        · rw [h]
          exact hconf
        · rw [h]
          exact WConforming_tail hconf
      simp only [copyLoop, copyLoopP, hiter, heq]
      exact ih ws1 p1 w1 log hconf1
    · rw [hiter] at heq
      simp only at heq
      simp only [copyLoop, copyLoopP, hiter, heq]

/-- C5 counterexample: the claim fails for a destination that violates the
write contract.  A writer that accepts 1 of 2 offered bytes with no error
makes the plain engine stop with `(1, ErrShortWrite)` while the policy
engine under ReturnPolicy retries the remainder and returns `(2, nil)`. -/
theorem copyPolicy_return_equiv_counterexample :
    (copyLoop 8 true none [fun _ => (2, none)] 0 [fun _ => (1, none)] 0).written = 1 ∧
    (copyLoop 8 true none [fun _ => (2, none)] 0 [fun _ => (1, none)] 0).err =
      some Err.shortWrite ∧
    (copyLoopP 8 ReturnPolicy true none [fun _ => (2, none)] 0
      [fun _ => (1, none)] 0 []).written = 2 ∧
    (copyLoopP 8 ReturnPolicy true none [fun _ => (2, none)] 0
      [fun _ => (1, none)] 0 []).err = none ∧
    ¬((copyLoopP 8 ReturnPolicy true none [fun _ => (2, none)] 0
        [fun _ => (1, none)] 0 []).written =
      (copyLoop 8 true none [fun _ => (2, none)] 0 [fun _ => (1, none)] 0).written ∧
      (copyLoopP 8 ReturnPolicy true none [fun _ => (2, none)] 0
        [fun _ => (1, none)] 0 []).err =
      (copyLoop 8 true none [fun _ => (2, none)] 0 [fun _ => (1, none)] 0).err) := by
  decide

/-- C5 (amended): for every contract-conforming destination (one that
reports a non-nil error whenever it accepts fewer bytes than offered), the
policy-aware engine under the Always-return ReturnPolicy returns exactly
the same byte count and outcome as the plain engine on the same inputs. -/
theorem copyPolicy_return_equiv (cap : Nat) (sk : Bool) (sf : Option Err)
    (rs : List RStep) (ws : List WStep) (pos : Int) (w : Nat) (log : List Op)
    (hconf : WConforming ws) :
    (copyLoopP cap ReturnPolicy sk sf rs pos ws w log).written =
      (copyLoop cap sk sf rs pos ws w).written ∧
    (copyLoopP cap ReturnPolicy sk sf rs pos ws w log).err =
      (copyLoop cap sk sf rs pos ws w).err := by
  rw [copyLoopP_return_equiv cap sk sf rs ws pos w log hconf]
  exact ⟨rfl, rfl⟩

/-- Witness for amended C5: a conforming destination that accepts at most
one byte per call, under which both engines agree. -/
theorem copyPolicy_return_equiv_witness :
    WConforming [fun len => (min len 1, some Err.wouldBlock)] ∧
    (copyLoopP 8 ReturnPolicy true none [fun _ => (3, none)] 0
        [fun len => (min len 1, some Err.wouldBlock)] 0 []).written =
      (copyLoop 8 true none [fun _ => (3, none)] 0
        [fun len => (min len 1, some Err.wouldBlock)] 0).written ∧
    (copyLoopP 8 ReturnPolicy true none [fun _ => (3, none)] 0
        [fun len => (min len 1, some Err.wouldBlock)] 0 []).err =
      (copyLoop 8 true none [fun _ => (3, none)] 0
        [fun len => (min len 1, some Err.wouldBlock)] 0).err := by
  have hconf : WConforming [fun len => (min len 1, some Err.wouldBlock)] := by
    intro g hm len
    rw [List.mem_singleton] at hm
    subst hm
    exact ⟨min_le_left _ _, by simp⟩
  exact ⟨hconf,
    copyPolicy_return_equiv 8 true none [fun _ => (3, none)]
      [fun len => (min len 1, some Err.wouldBlock)] 0 0 [] hconf⟩

theorem tri_succ (m : Nat) : tri (m + 1) = tri m + (m + 1) := rfl

theorem tri_double (m : Nat) : 2 * tri m = m * (m + 1) := by
  induction m with
  | zero => rfl
  | succ k ih =>
    have h : 2 * tri (k + 1) = 2 * tri k + 2 * (k + 1) := by
      rw [tri_succ]
      ring
    rw [h, ih]
    ring

theorem tri_mono {a b : Nat} (h : a ≤ b) : tri a ≤ tri b := by
  induction b with
  | zero =>
    have : a = 0 := by omega
    subst this
    exact le_refl _
  | succ k ih =>
    rcases Nat.lt_or_ge a (k + 1) with h' | h'
    · exact le_trans (ih (by omega)) (by rw [tri_succ]; omega)
    · have : a = k + 1 := by omega
      subst this
      exact le_refl _

/-- Invariant of the `Wait` state machine started from the zero value:
after `k+1` waits the state satisfies `2i + n(n-1) = 2(k+1)` with
`0 ≤ i < n`, and base/ceiling hold their defaults. -/
theorem backoff_after_inv (seed : Nat) : ∀ k : Nat,
    1 ≤ (backoffAfter seed (k + 1)).n ∧
    0 ≤ (backoffAfter seed (k + 1)).i ∧
    (backoffAfter seed (k + 1)).i < (backoffAfter seed (k + 1)).n ∧
    2 * (backoffAfter seed (k + 1)).i +
      (backoffAfter seed (k + 1)).n * ((backoffAfter seed (k + 1)).n - 1) =
      2 * ((k : Int) + 1) ∧
    (backoffAfter seed (k + 1)).base = DefaultBackoffBase ∧
    (backoffAfter seed (k + 1)).max = DefaultBackoffMax := by
  intro k
  induction k with
  | zero =>
    simp [backoffAfter, Backoff.zero, Backoff.Wait, Backoff.applyJitter,
      DefaultBackoffBase, DefaultBackoffMax]
  | succ k ih =>
    obtain ⟨h1, h2, h3, h4, h5, h6⟩ := ih
    have hn0 : ¬ (backoffAfter seed (k + 1)).n = 0 := by omega
    have hstep : backoffAfter seed (k + 1 + 1) =
        (Backoff.Wait seed (backoffAfter seed (k + 1))).1 := rfl
    rw [hstep]
    set b := backoffAfter seed (k + 1) with hb
    by_cases hge : b.i + 1 ≥ b.n
    · simp only [Backoff.Wait, Backoff.applyJitter, hn0, if_false, hge, if_true]
      refine ⟨by omega, by omega, by omega, ?_, h5, h6⟩
      have hr : (b.n + 1) * (b.n + 1 - 1) = b.n * (b.n - 1) + 2 * b.n := by ring
      simp only [hr]
      push_cast
      generalize hM : b.n * (b.n - 1) = M at h4 ⊢
      omega
    · simp only [Backoff.Wait, Backoff.applyJitter, hn0, if_false, hge]
      refine ⟨by omega, by omega, by omega, ?_, h5, h6⟩
      generalize hM : b.n * (b.n - 1) = M at h4 ⊢
      push_cast at h4 ⊢
      omega

/-- C8: after `k` consecutive `Wait()` calls on a freshly constructed
(zero-value) `Backoff`, the `Block()` accessor reports the smallest `b`
with `1 + 2 + ... + b ≥ k + 1`, and the `Duration()` accessor reports
`min(b × base, ceiling)` (with the 500µs/100ms defaults); the pre-jitter
duration the next `Wait()` actually uses equals `Duration()` of the
current state, and a fresh instance reports block 1 and 500µs.  `Block`
and `Duration` are pure functions of the state: they sleep nowhere and
return a value without touching the state. -/
theorem backoff_schedule (seed k : Nat) :
    ∃ B : Nat,
      (backoffAfter seed k).Block = (B : Int) ∧
      k + 1 ≤ tri B ∧
      (∀ m : Nat, m < B → tri m < k + 1) ∧
      (backoffAfter seed k).Duration =
        min ((B : Int) * DefaultBackoffBase) DefaultBackoffMax ∧
      (Backoff.Wait seed (backoffAfter seed k)).2.1 = (backoffAfter seed k).Duration ∧
      (backoffAfter seed 0).Block = 1 ∧
      (backoffAfter seed 0).Duration = DefaultBackoffBase := by
  have hfresh : (backoffAfter seed 0).Block = 1 ∧
      (backoffAfter seed 0).Duration = DefaultBackoffBase := by
    constructor
    · simp [backoffAfter, Backoff.zero, Backoff.Block]
    · simp [backoffAfter, Backoff.zero, Backoff.Duration,
        DefaultBackoffBase, DefaultBackoffMax]
  cases k with
  | zero =>
    refine ⟨1, ?_, ?_, ?_, ?_, ?_, hfresh.1, hfresh.2⟩
    · simp [backoffAfter, Backoff.zero, Backoff.Block]
    · simp [tri]
    · intro m hm
      have : m = 0 := by omega
      subst this
      simp [tri]
    · rw [hfresh.2]
      simp [DefaultBackoffBase, DefaultBackoffMax]
    · simp [backoffAfter, Backoff.zero, Backoff.Wait, Backoff.Duration,
        Backoff.applyJitter, DefaultBackoffBase, DefaultBackoffMax]
  | succ k =>
    obtain ⟨h1, h2, h3, h4, h5, h6⟩ := backoff_after_inv seed k
    set b := backoffAfter seed (k + 1) with hb
    have hn0 : ¬ b.n = 0 := by omega
    obtain ⟨N, hN⟩ : ∃ N : Nat, b.n = (N : Int) := ⟨b.n.toNat, by omega⟩
    obtain ⟨I, hI⟩ : ∃ I : Nat, b.i = (I : Int) := ⟨b.i.toNat, by omega⟩
    have hN1 : 1 ≤ N := by omega
    have hIN : I < N := by omega
    have hNat : 2 * I + N * (N - 1) = 2 * (k + 1) := by
      have hc : b.n * (b.n - 1) = ((N * (N - 1) : Nat) : Int) := by
        rw [hN]
        push_cast [hN1]
        ring
      rw [hI, hc] at h4
      exact_mod_cast h4
    have htriN : 2 * tri N = N * (N + 1) := tri_double N
    have htriP : 2 * tri (N - 1) = (N - 1) * N := by
      have := tri_double (N - 1)
      rwa [Nat.sub_add_cancel hN1] at this
    have hNN : N * (N + 1) = N * (N - 1) + 2 * N := by
      obtain ⟨P, rfl⟩ : ∃ P, N = P + 1 := ⟨N - 1, by omega⟩
      simp only [Nat.add_sub_cancel]
      ring
    have hPN : (N - 1) * N = N * (N - 1) := Nat.mul_comm _ _
    refine ⟨N, ?_, ?_, ?_, ?_, ?_, hfresh.1, hfresh.2⟩
    · simp only [Backoff.Block, hN]
      rw [if_neg (by omega : ¬ (N : Int) = 0)]
    · generalize hM : N * (N - 1) = M at hNat hNN
      omega
    · intro m hm
      have hmono : tri m ≤ tri (N - 1) := tri_mono (by omega)
      generalize hM : N * (N - 1) = M at hNat hPN
      omega
    · simp only [Backoff.Duration, hn0, if_false, h5, h6]
      have hbase : ¬ DefaultBackoffBase ≤ 0 := by
        simp [DefaultBackoffBase]
      have hmax : ¬ DefaultBackoffMax ≤ 0 := by
        simp [DefaultBackoffMax]
      simp only [hbase, if_false, hmax, hN]
      omega
    · simp only [Backoff.Wait, Backoff.applyJitter, hn0, if_false,
        Backoff.Duration, h5, h6]
      have hbase : ¬ DefaultBackoffBase ≤ 0 := by
        simp [DefaultBackoffBase]
      have hmax : ¬ DefaultBackoffMax ≤ 0 := by
        simp [DefaultBackoffMax]
      simp [hbase, hmax]

/-- Witness for C8 at seed 7 after 4 waits. -/
theorem backoff_schedule_witness :
    ∃ B : Nat,
      (backoffAfter 7 4).Block = (B : Int) ∧
      4 + 1 ≤ tri B ∧
      (∀ m : Nat, m < B → tri m < 4 + 1) ∧
      (backoffAfter 7 4).Duration =
        min ((B : Int) * DefaultBackoffBase) DefaultBackoffMax ∧
      (Backoff.Wait 7 (backoffAfter 7 4)).2.1 = (backoffAfter 7 4).Duration ∧
      (backoffAfter 7 0).Block = 1 ∧
      (backoffAfter 7 0).Duration = DefaultBackoffBase :=
  backoff_schedule 7 4

end Iox
